import Mathlib

/-!
Verification of the image-to-SVG conversion pipeline of `ImageConverter.js`
(svg-map-creator).  The JavaScript functions are shallowly embedded: pixel
buffers become flat lists of natural-number bytes, JS numbers become exact
rationals, the stateful contour tracer becomes explicit state passing over a
visited list, and each claim of the specification is settled as a theorem
about these definitions.
-/

namespace SvgMapCreator

/-- A 2-D point with rational coordinates.  JS `{x, y}` objects carry IEEE
doubles; the embedding idealizes them as exact rationals. -/
structure Point where
  x : ℚ
  y : ℚ
deriving DecidableEq, Repr

/-- Squared distance from `point` to the segment `lineStart`–`lineEnd`,
embedding `pointLineDistance` from the source.  The source returns the square
root of this value; every use of that value in `simplifyContour` is a
comparison, and comparisons of square roots of nonnegative rationals agree
with comparisons of the squares, so the embedding tracks squared distances to
stay in exact rational arithmetic. -/
def pointLineDistanceSq (point lineStart lineEnd : Point) : ℚ :=
  let dx := lineEnd.x - lineStart.x
  let dy := lineEnd.y - lineStart.y
  let lenSq := dx * dx + dy * dy
  if lenSq = 0 then
    (point.x - lineStart.x) ^ 2 + (point.y - lineStart.y) ^ 2
  else
    let t0 := ((point.x - lineStart.x) * dx + (point.y - lineStart.y) * dy) / lenSq
    let t := max 0 (min 1 t0)
    let nearestX := lineStart.x + t * dx
    let nearestY := lineStart.y + t * dy
    (point.x - nearestX) ^ 2 + (point.y - nearestY) ^ 2

/-- The maximum-distance scan of `simplifyContour`: walks the interior points
carrying the running maximum squared distance and its index (the source's
`maxDist`/`maxIdx`, initialized to `0`/`0`); `i` is the index, in the full
point list, of the head of `pts`.  The source compares `dist > maxDist` on
square roots, which agrees with `maxSq < d` on the squares. -/
def maxDistAux (s e : Point) : List Point → Nat → ℚ → Nat → ℚ × Nat
  | [], _, maxSq, maxIdx => (maxSq, maxIdx)
  | p :: rest, i, maxSq, maxIdx =>
    let d := pointLineDistanceSq p s e
    if maxSq < d then maxDistAux s e rest (i + 1) d i
    else maxDistAux s e rest (i + 1) maxSq maxIdx

/-- The `maxDist`/`maxIdx` scan of `simplifyContour` over the interior
points (indices 1 .. length-2), against the chord from the first point to
the last. -/
def maxDistScan (points : List Point) : ℚ × Nat :=
  maxDistAux (points.headD ⟨0, 0⟩) (points.getLastD ⟨0, 0⟩)
    ((points.drop 1).dropLast) 1 0 0

/-- Body of Douglas–Peucker simplification, embedding `simplifyContour` from
the source, with an explicit fuel argument standing for the recursion-depth
bound (each recursive call strictly shrinks the point list, so fuel equal to
the list length — supplied by `simplifyContour` below — is never exhausted).
The source's guard against null/malformed points is vacuous here (every
`Point` is well-formed), and its comparison `maxDist > tolerance` on the
square-rooted distance is embedded as `tolerance * tolerance < maxSq`,
which agrees with the source for every `tolerance ≥ 0` (the range the
specification admits). -/
def simplifyContourFuel : Nat → List Point → ℚ → List Point
  | 0, points, _ => points
  | fuel + 1, points, tolerance =>
    if points.length ≤ 2 then points
    else if tolerance * tolerance < (maxDistScan points).1 then
      (simplifyContourFuel fuel (points.take ((maxDistScan points).2 + 1))
          tolerance).dropLast ++
        simplifyContourFuel fuel (points.drop ((maxDistScan points).2)) tolerance
    else [points.headD ⟨0, 0⟩, points.getLastD ⟨0, 0⟩]

/-- Douglas–Peucker simplification (`simplifyContour` in the source). -/
def simplifyContour (points : List Point) (tolerance : ℚ) : List Point :=
  simplifyContourFuel points.length points tolerance

/-- An RGBA pixel buffer: `data` is the flat channel array, 4 bytes per
pixel in row-major order, mirroring JS `ImageData`. -/
structure Img where
  width : Nat
  height : Nat
  data : List Nat
deriving DecidableEq, Repr

/-- Embedding of `threshold` from the source: walks the flat RGBA array four
bytes at a time, writing 255 into R, G and B when the red byte strictly
exceeds `level * 2.55` and 0 otherwise, leaving alpha alone.  The trailing
patterns mirror a buffer whose length is not a multiple of 4, where the JS
loop still reads `data[i]` and the out-of-range channel writes are dropped
by the typed array.  The JS float constant 2.55 is idealized as the exact
rational 255/100. -/
def threshold : List Nat → ℚ → List Nat
  | r :: _ :: _ :: a :: rest, level =>
    let v := if level * (255 / 100) < (r : ℚ) then 255 else 0
    v :: v :: v :: a :: threshold rest level
  | [r, _, _], level => [if level * (255 / 100) < (r : ℚ) then 255 else 0,
      if level * (255 / 100) < (r : ℚ) then 255 else 0,
      if level * (255 / 100) < (r : ℚ) then 255 else 0]
  | [r, _], level => [if level * (255 / 100) < (r : ℚ) then 255 else 0,
      if level * (255 / 100) < (r : ℚ) then 255 else 0]
  | [r], level => [if level * (255 / 100) < (r : ℚ) then 255 else 0]
  | [], _ => []

/-- The 3×3 Sobel horizontal kernel from the source (`sobelX`). -/
def sobelX : List (List Int) := [[-1, 0, 1], [-2, 0, 2], [-1, 0, 1]]

/-- The 3×3 Sobel vertical kernel from the source (`sobelY`). -/
def sobelY : List (List Int) := [[-1, -2, -1], [0, 0, 0], [1, 2, 1]]

/-- The gradient accumulation loop of `detectEdges`: sums
`gray * kernel[dy+1][dx+1]` over the 3×3 neighborhood of interior pixel
`(x, y)`, reading the red channel as the source does.  `dy`/`dx` here run
over 0..2 instead of -1..1, so the pixel read is `(x + dx - 1, y + dy - 1)`;
for interior pixels every read is in bounds, as in the source. -/
def sobelGrad (img : Img) (x y : Nat) (kernel : List (List Int)) : Int :=
  (List.range 3).foldl (fun acc dy =>
    (List.range 3).foldl (fun acc2 dx =>
      let gray : Int := img.data.getD (((y + dy - 1) * img.width + (x + dx - 1)) * 4) 0
      acc2 + gray * ((kernel.getD dy []).getD dx 0)) acc) 0

/-- Nearest integer to the real square root of `s`.  The source computes
`Math.sqrt(gx*gx + gy*gy)` in IEEE doubles and stores it through a
`Uint8ClampedArray`, which rounds to the nearest integer; for the integer
radicands reachable here (at most about 2·10⁶) the correctly rounded double
square root is never exactly on a rounding tie and is far closer to the real
square root than half an ulp, so the stored byte is exactly the nearest
integer to the real square root, which this computes. -/
def roundSqrt (s : Nat) : Nat := (Nat.sqrt (4 * s) + 1) / 2

/-- Embedding of `detectEdges` from the source: the result buffer starts
zero-filled, and each interior pixel receives the clamped Sobel magnitude in
R, G, B with alpha 255; the 1-pixel border keeps the zero fill (all four
channels, alpha included).  The row-major double loop of the source is
expressed as one pass over pixel indices; no output pixel depends on
another, so the order is immaterial.  The `radius` parameter is accepted and
ignored exactly as in the source. -/
def detectEdges (img : Img) (radius : Nat := 1) : Img :=
  { img with data := (List.range (img.width * img.height)).flatMap (fun p =>
      let x := p % img.width
      let y := p / img.width
      if 1 ≤ x ∧ x + 1 < img.width ∧ 1 ≤ y ∧ y + 1 < img.height then
        let gx := sobelGrad img x y sobelX
        let gy := sobelGrad img x y sobelY
        let m := min 255 (roundSqrt (gx * gx + gy * gy).toNat)
        [m, m, m, 255]
      else [0, 0, 0, 0]) }

/-- `getPixel` from `findContours`: the red byte at `(x, y)`, or 0 (black)
when the coordinate lies outside the image. -/
def getPixel (img : Img) (x y : Int) : Nat :=
  if x < 0 ∨ (img.width : Int) ≤ x ∨ y < 0 ∨ (img.height : Int) ≤ y then 0
  else img.data.getD ((y.toNat * img.width + x.toNat) * 4) 0

/-- The Moore neighborhood direction table of `traceContour`:
N, NE, E, SE, S, SW, W, NW. -/
def directions : List (Int × Int) :=
  [(0, -1), (1, -1), (1, 0), (1, 1), (0, 1), (-1, 1), (-1, 0), (-1, -1)]

/-- The neighbor search of `traceContour`: starting at offset `dir + 5`
(backtrack + 1) and scanning the 8 Moore directions in order, returns the
first neighbor whose pixel value exceeds 127 together with the direction
taken, or `none` when every neighbor is dark.  `i` counts the directions
already tried, `fuel = 8 - i`. -/
def findNextAux (img : Img) (x y : Int) (dir : Nat) : Nat → Nat → Option (Int × Int × Nat)
  | _, 0 => none
  | i, fuel + 1 =>
    let newDir := (dir + i + 5) % 8
    let d := directions.getD newDir (0, 0)
    let nx := x + d.1
    let ny := y + d.2
    if 127 < getPixel img nx ny then some (nx, ny, newDir)
    else findNextAux img x y dir (i + 1) fuel

/-- The body of the `for (let i = 0; i < 8; i++)` neighbor loop. -/
def findNext (img : Img) (x y : Int) (dir : Nat) : Option (Int × Int × Nat) :=
  findNextAux img x y dir 0 8

/-- The do–while walk of `traceContour`, with the mutable locals made
explicit: each round appends the current pixel to the contour, marks it in
the visited list, then either stops (no bright neighbor / returned to the
start / iteration cap) or steps to the found neighbor.  `fuel` is
`maxIter - 1 - iter`, so the walk continues exactly while the source's
`iter < maxIter` holds; with fuel exhausted all three stop conditions yield
the same pair, which the first arm returns directly. -/
def traceGo (img : Img) (sx sy : Nat) :
    Nat → Int → Int → Nat → Bool → List (Int × Int) → List Bool →
      List (Int × Int) × List Bool
  | 0, x, y, _, _, acc, vis =>
    (acc ++ [(x, y)], vis.set (y.toNat * img.width + x.toNat) true)
  | fuel + 1, x, y, dir, first, acc, vis =>
    let acc2 := acc ++ [(x, y)]
    let vis2 := vis.set (y.toNat * img.width + x.toNat) true
    match findNext img x y dir with
    | none => (acc2, vis2)
    | some (nx, ny, ndir) =>
      if first = false ∧ nx = (sx : Int) ∧ ny = (sy : Int) then (acc2, vis2)
      else traceGo img sx sy fuel nx ny ndir false acc2 vis2

/-- `traceContour` from the source: Moore-neighbor tracing from seed
`(startX, startY)`, beginning the neighbor search west-northwest (`dir = 7`)
with the iteration cap `maxIter = width * height`; returns the traced
contour together with the updated visited list. -/
def traceContour (img : Img) (vis : List Bool) (startX startY : Nat) :
    List (Int × Int) × List Bool :=
  traceGo img startX startY (img.width * img.height - 1)
    startX startY 7 true [] vis

/-- One cell of the seed scan in `findContours`: skip pixels already
visited; for a bright pixel with a dark 4-neighbor, trace the contour and
keep it when it has at least 10 points. -/
def scanCell (img : Img) (st : List Bool × List (List (Int × Int))) (x y : Nat) :
    List Bool × List (List (Int × Int)) :=
  let idx := y * img.width + x
  if st.1.getD idx false then st
  else if 127 < getPixel img x y then
    if (getPixel img ((x : Int) - 1) y ≤ 127 ∨ getPixel img ((x : Int) + 1) y ≤ 127 ∨
        getPixel img x ((y : Int) - 1) ≤ 127 ∨ getPixel img x ((y : Int) + 1) ≤ 127) ∧
        st.1.getD idx false = false then
      let r := traceContour img st.1 x y
      (r.2, if 10 ≤ r.1.length then st.2 ++ [r.1] else st.2)
    else st
  else st

/-- `findContours` from the source: row-major scan of the interior ring
`1 ≤ x ≤ width-2`, `1 ≤ y ≤ height-2`, threading the visited list through
`scanCell` and collecting the accepted contours. -/
def findContours (img : Img) : List (List (Int × Int)) :=
  ((List.range' 1 (img.height - 2)).foldl (fun st y =>
    (List.range' 1 (img.width - 2)).foldl (fun st x => scanCell img st x y) st)
    (List.replicate (img.width * img.height) false, [])).2

/-- A coordinate pair lies inside the image. -/
def inBounds (img : Img) (q : Int × Int) : Prop :=
  0 ≤ q.1 ∧ q.1 < (img.width : Int) ∧ 0 ≤ q.2 ∧ q.2 < (img.height : Int)

/-- Embedding of `smoothContour` from the source: circular moving average
with window half-width `max(1, floor(factor * 3))`, output coordinates
rounded to integers (JS `Math.round` rounds halves up, as does Mathlib's
`round`).  The JS index expression `(i + j + len) % len` (with
`j = k - window`) is written `(i + k + len - window) % len`; the two agree
whenever `window ≤ len`, and for `window > len` the JS code indexes out of
range and poisons the output with NaN, a regime outside the rational
embedding and outside every claim (which constrain only `area`, computed
before smoothing).  The source's malformed-point filter is again vacuous. -/
def smoothContour (points : List Point) (factor : ℚ) : List Point :=
  if points.length < 3 then points
  else
    let window : Nat := (if ⌊factor * 3⌋ < 1 then 1 else ⌊factor * 3⌋).toNat
    let n := points.length
    (List.range n).map (fun i =>
      let sumX := ((List.range (2 * window + 1)).map (fun k =>
        (points.getD ((i + k + n - window) % n) ⟨0, 0⟩).x)).sum
      let sumY := ((List.range (2 * window + 1)).map (fun k =>
        (points.getD ((i + k + n - window) % n) ⟨0, 0⟩).y)).sum
      Point.mk ((round (sumX / (2 * window + 1 : ℚ)) : ℤ) : ℚ)
        ((round (sumY / (2 * window + 1 : ℚ)) : ℤ) : ℚ))

/-- The shoelace accumulation of `processContours`: sums
`x_i * y_j - x_j * y_i` with `j = (i+1) % length` and halves the absolute
value. -/
def shoelaceArea (contour : List Point) : ℚ :=
  |(List.range contour.length).foldl (fun acc i =>
      let pi := contour.getD i ⟨0, 0⟩
      let pj := contour.getD ((i + 1) % contour.length) ⟨0, 0⟩
      acc + pi.x * pj.y - pj.x * pi.y) 0 / 2|

/-- A processed region, mirroring the object literal built in
`processContours`. -/
structure Region where
  points : List Point
  area : ℚ
  originalLength : Nat
  simplifiedLength : Nat
deriving DecidableEq, Repr

/-- The `.map` body of `processContours`: area via shoelace on the raw
contour, Douglas–Peucker simplification, then optional smoothing. -/
def mkRegion (simplifyTolerance smoothing : ℚ) (contour : List Point) : Region :=
  let area := shoelaceArea contour
  let simplified := simplifyContour contour simplifyTolerance
  let smoothed := if 0 < smoothing then smoothContour simplified smoothing else simplified
  { points := smoothed, area := area,
    originalLength := contour.length, simplifiedLength := smoothed.length }

/-- Ordered insertion used to model the `.sort((a, b) => b.area - a.area)`
call: a region is placed before the first region whose area does not exceed
its own. -/
def insertRegion (r : Region) : List Region → List Region
  | [] => [r]
  | s :: rest => if s.area ≤ r.area then r :: s :: rest else s :: insertRegion r rest

/-- Stable descending-area sort.  ECMAScript requires
`Array.prototype.sort` to be stable, and with the comparator
`(a, b) => b.area - a.area` it orders by strictly descending area keeping
the original order of equal-area elements; insertion sort with the
non-strict comparison realizes exactly that specification. -/
def sortByAreaDesc : List Region → List Region
  | [] => []
  | r :: rest => insertRegion r (sortByAreaDesc rest)

/-- `processContours` from the source: map each contour to a region, drop
regions with `area < minRegionArea`, and sort the survivors by descending
area (stable). -/
def processContours (contours : List (List Point))
    (simplifyTolerance smoothing minRegionArea : ℚ) : List Region :=
  sortByAreaDesc (((contours.map (mkRegion simplifyTolerance smoothing)).filter
    (fun r => minRegionArea ≤ r.area)))

/-! ### Structural lemmas about Douglas–Peucker simplification -/

theorem maxDistAux_fst_le (s e : Point) :
    ∀ (pts : List Point) (i : Nat) (m : ℚ) (k : Nat),
      m ≤ (maxDistAux s e pts i m k).1 := by
  intro pts
  induction pts with
  | nil => intro i m k; simp [maxDistAux]
  | cons p rest ih =>
    intro i m k
    simp only [maxDistAux]
    split
    · exact le_trans (le_of_lt (by assumption)) (ih _ _ _)
    · exact ih _ _ _

theorem maxDistAux_snd_of_fst_eq (s e : Point) :
    ∀ (pts : List Point) (i : Nat) (m : ℚ) (k : Nat),
      (maxDistAux s e pts i m k).1 = m → (maxDistAux s e pts i m k).2 = k := by
  intro pts
  induction pts with
  | nil => intro i m k _; simp [maxDistAux]
  | cons p rest ih =>
    intro i m k h
    simp only [maxDistAux] at h ⊢
    split at h
    · exact absurd h (by
        have h1 := maxDistAux_fst_le s e rest (i + 1) (pointLineDistanceSq p s e) i
        have h2 : m < pointLineDistanceSq p s e := by assumption
        exact ne_of_gt (lt_of_lt_of_le h2 h1))
    · rename_i hcond
      rw [if_neg hcond]
      exact ih _ _ _ h

theorem maxDistAux_snd_bound (s e : Point) :
    ∀ (pts : List Point) (i : Nat) (m : ℚ) (k : Nat),
      m < (maxDistAux s e pts i m k).1 →
      i ≤ (maxDistAux s e pts i m k).2 ∧
        (maxDistAux s e pts i m k).2 < i + pts.length := by
  intro pts
  induction pts with
  | nil => intro i m k h; simp [maxDistAux] at h
  | cons p rest ih =>
    intro i m k h
    simp only [maxDistAux] at h ⊢
    split at h
    · rename_i hcond
      rw [if_pos hcond]
      rcases eq_or_lt_of_le
          (maxDistAux_fst_le s e rest (i + 1) (pointLineDistanceSq p s e) i) with heq | hlt
      · have hsnd := maxDistAux_snd_of_fst_eq s e rest (i + 1)
          (pointLineDistanceSq p s e) i heq.symm
        rw [hsnd]
        simp
      · have hb := ih (i + 1) (pointLineDistanceSq p s e) i hlt
        constructor
        · omega
        · have h2 := hb.2
          simp only [List.length_cons]
          omega
    · rename_i hcond
      rw [if_neg hcond]
      have hb := ih (i + 1) m k h
      constructor
      · omega
      · have := hb.2
        simp only [List.length_cons]
        omega

/-- When the scan found a positive maximum, its index is an interior index:
`1 ≤ maxIdx ≤ length - 2`. -/
theorem maxDistScan_bound (points : List Point)
    (h : 0 < (maxDistScan points).1) :
    1 ≤ (maxDistScan points).2 ∧ (maxDistScan points).2 < points.length - 1 := by
  unfold maxDistScan at h ⊢
  have hb := maxDistAux_snd_bound (points.headD ⟨0, 0⟩) (points.getLastD ⟨0, 0⟩)
    ((points.drop 1).dropLast) 1 0 0 h
  simp only [List.length_dropLast, List.length_drop] at hb
  have h1 := hb.1
  have h2 := hb.2
  exact ⟨h1, by omega⟩

theorem simplifyContourFuel_length_le (fuel : Nat) :
    ∀ (points : List Point) (tolerance : ℚ),
      (simplifyContourFuel fuel points tolerance).length ≤ points.length := by
  induction fuel with
  | zero => intro points tolerance; exact le_refl _
  | succ fuel ih =>
    intro points tolerance
    simp only [simplifyContourFuel]
    split
    · exact le_refl _
    · rename_i hlen
      split
      · have h1 := ih (points.take ((maxDistScan points).2 + 1)) tolerance
        have h2 := ih (points.drop ((maxDistScan points).2)) tolerance
        simp only [List.length_append, List.length_dropLast, List.length_take,
          List.length_drop] at h1 h2 ⊢
        omega
      · simp only [List.length_cons, List.length_nil]
        omega

theorem simplifyContourFuel_two_le (fuel : Nat) :
    ∀ (points : List Point) (tolerance : ℚ), 2 ≤ points.length →
      2 ≤ (simplifyContourFuel fuel points tolerance).length := by
  induction fuel with
  | zero => intro points tolerance h; exact h
  | succ fuel ih =>
    intro points tolerance h
    simp only [simplifyContourFuel]
    split
    · exact h
    · rename_i hlen
      split
      · rename_i hmax
        have hb := maxDistScan_bound points
          (lt_of_le_of_lt (mul_self_nonneg tolerance) hmax)
        have h2 := ih (points.drop ((maxDistScan points).2)) tolerance
          (by simp only [List.length_drop]; omega)
        simp only [List.length_append, List.length_dropLast]
        omega
      · simp

theorem head?_take_succ {α : Type} (l : List α) (k : Nat) :
    (l.take (k + 1)).head? = l.head? := by
  cases l with
  | nil => rfl
  | cons a t => rfl

theorem getLast?_drop_of_lt {α : Type} :
    ∀ (k : Nat) (l : List α), k < l.length → (l.drop k).getLast? = l.getLast? := by
  intro k
  induction k with
  | zero => intro l _; rfl
  | succ k ih =>
    intro l h
    cases l with
    | nil => simp at h
    | cons a t =>
      simp only [List.drop_succ_cons]
      have hk : k < t.length := by simp at h; omega
      rw [ih t hk]
      cases t with
      | nil => simp at hk
      | cons b t2 => simp

theorem simplifyContourFuel_head? (fuel : Nat) :
    ∀ (points : List Point) (tolerance : ℚ), points ≠ [] →
      (simplifyContourFuel fuel points tolerance).head? = points.head? := by
  induction fuel with
  | zero => intro points tolerance _; rfl
  | succ fuel ih =>
    intro points tolerance hne
    simp only [simplifyContourFuel]
    split
    · rfl
    · rename_i hlen
      obtain ⟨p, rest, rfl⟩ := List.exists_cons_of_ne_nil hne
      split
      · rename_i hmax
        have hb := maxDistScan_bound (p :: rest)
          (lt_of_le_of_lt (mul_self_nonneg tolerance) hmax)
        have htake2 : 2 ≤ ((p :: rest).take ((maxDistScan (p :: rest)).2 + 1)).length := by
          simp only [List.length_take, List.length_cons]
          simp only [List.length_cons] at hlen
          omega
        have hh := ih ((p :: rest).take ((maxDistScan (p :: rest)).2 + 1)) tolerance
          (by intro he; rw [he] at htake2; simp at htake2)
        have hout2 := simplifyContourFuel_two_le fuel
          ((p :: rest).take ((maxDistScan (p :: rest)).2 + 1)) tolerance htake2
        rw [List.head?_append, List.head?_dropLast]
        rw [if_pos (by omega : 1 <
          (simplifyContourFuel fuel
            ((p :: rest).take ((maxDistScan (p :: rest)).2 + 1)) tolerance).length)]
        rw [hh, head?_take_succ]
        rfl
      · simp

theorem simplifyContourFuel_getLast? (fuel : Nat) :
    ∀ (points : List Point) (tolerance : ℚ), points ≠ [] →
      (simplifyContourFuel fuel points tolerance).getLast? = points.getLast? := by
  induction fuel with
  | zero => intro points tolerance _; rfl
  | succ fuel ih =>
    intro points tolerance hne
    simp only [simplifyContourFuel]
    split
    · rfl
    · rename_i hlen
      split
      · rename_i hmax
        have hb := maxDistScan_bound points
          (lt_of_le_of_lt (mul_self_nonneg tolerance) hmax)
        have hdrop2 : 2 ≤ (points.drop ((maxDistScan points).2)).length := by
          simp only [List.length_drop]
          omega
        have hg := ih (points.drop ((maxDistScan points).2)) tolerance
          (by intro he; rw [he] at hdrop2; simp at hdrop2)
        rw [List.getLast?_append, hg, getLast?_drop_of_lt _ _ (by omega)]
        cases hp : points.getLast? with
        | none =>
          rw [List.getLast?_eq_none_iff] at hp
          rw [hp] at hlen
          simp at hlen
        | some q => rfl
      · have hstep : ([points.headD ⟨0, 0⟩, points.getLastD ⟨0, 0⟩] : List Point).getLast? =
            some (points.getLastD ⟨0, 0⟩) := by simp
        rw [hstep, List.getLastD_eq_getLast?]
        cases hq : points.getLast? with
        | none =>
          rw [List.getLast?_eq_none_iff] at hq
          rw [hq] at hlen
          simp at hlen
        | some z => simp

theorem simplifyContourFuel_length_anti (fuel : Nat) :
    ∀ (points : List Point) (t1 t2 : ℚ), 0 ≤ t1 → t1 ≤ t2 →
      (simplifyContourFuel fuel points t2).length ≤
        (simplifyContourFuel fuel points t1).length := by
  induction fuel with
  | zero => intro points t1 t2 _ _; exact le_refl _
  | succ fuel ih =>
    intro points t1 t2 h0 h12
    have hsq : t1 * t1 ≤ t2 * t2 := mul_le_mul h12 h12 h0 (le_trans h0 h12)
    simp only [simplifyContourFuel]
    by_cases hlen : points.length ≤ 2
    · rw [if_pos hlen, if_pos hlen]
    · rw [if_neg hlen, if_neg hlen]
      by_cases hc2 : t2 * t2 < (maxDistScan points).1
      · have hc1 : t1 * t1 < (maxDistScan points).1 := lt_of_le_of_lt hsq hc2
        rw [if_pos hc2, if_pos hc1]
        have hb := maxDistScan_bound points (lt_of_le_of_lt (mul_self_nonneg t1) hc1)
        have htake2 : 2 ≤ (points.take ((maxDistScan points).2 + 1)).length := by
          simp only [List.length_take]
          omega
        have hA := ih (points.take ((maxDistScan points).2 + 1)) t1 t2 h0 h12
        have hB := ih (points.drop ((maxDistScan points).2)) t1 t2 h0 h12
        have hA2 := simplifyContourFuel_two_le fuel
          (points.take ((maxDistScan points).2 + 1)) t2 htake2
        simp only [List.length_append, List.length_dropLast]
        omega
      · rw [if_neg hc2]
        by_cases hc1 : t1 * t1 < (maxDistScan points).1
        · rw [if_pos hc1]
          have hb := maxDistScan_bound points (lt_of_le_of_lt (mul_self_nonneg t1) hc1)
          have hdrop2 : 2 ≤ (points.drop ((maxDistScan points).2)).length := by
            simp only [List.length_drop]
            omega
          have hB2 := simplifyContourFuel_two_le fuel
            (points.drop ((maxDistScan points).2)) t1 hdrop2
          simp only [List.length_append, List.length_dropLast, List.length_cons,
            List.length_nil]
          omega
        · rw [if_neg hc1]

/-! ### Lemmas about the threshold stage -/

theorem threshold_length (data : List Nat) (level : ℚ) :
    (threshold data level).length = data.length := by
  match data with
  | [] => rfl
  | [r] => rfl
  | [r, g] => rfl
  | [r, g, b] => rfl
  | r :: g :: b :: a :: rest =>
    simp only [threshold, List.length_cons]
    rw [threshold_length rest level]

theorem threshold_getD_color (data : List Nat) (level : ℚ) (p c : Nat)
    (hc : c ≤ 2) (h : 4 * p + c < data.length) :
    (threshold data level).getD (4 * p + c) 0 =
      if level * (255 / 100) < (data.getD (4 * p) 0 : ℚ) then 255 else 0 := by
  match p with
  | 0 =>
    simp only [Nat.mul_zero, Nat.zero_add] at h ⊢
    match data with
    | [] => simp at h
    | [r] =>
      simp only [List.length_cons, List.length_nil] at h
      have hc0 : c = 0 := by omega
      subst hc0
      simp [threshold]
    | [r, g] =>
      simp only [List.length_cons, List.length_nil] at h
      match c with
      | 0 => simp [threshold]
      | 1 => simp [threshold]
      | n + 2 => omega
    | [r, g, b] =>
      match c with
      | 0 => simp [threshold]
      | 1 => simp [threshold]
      | 2 => simp [threshold]
      | n + 3 => omega
    | r :: g :: b :: a :: rest =>
      match c with
      | 0 => simp [threshold]
      | 1 => simp [threshold]
      | 2 => simp [threshold]
      | n + 3 => omega
  | p + 1 =>
    match data with
    | [] => simp at h
    | [r] => simp only [List.length_cons, List.length_nil] at h; omega
    | [r, g] => simp only [List.length_cons, List.length_nil] at h; omega
    | [r, g, b] => simp only [List.length_cons, List.length_nil] at h; omega
    | r :: g :: b :: a :: rest =>
      have hrest : 4 * p + c < rest.length := by
        simp only [List.length_cons] at h
        omega
      simp only [threshold]
      rw [show 4 * (p + 1) + c = ((((4 * p + c) + 1) + 1) + 1) + 1 from by omega,
        show 4 * (p + 1) = ((((4 * p) + 1) + 1) + 1) + 1 from by omega]
      simp only [List.getD_cons_succ]
      exact threshold_getD_color rest level p c hc hrest

theorem threshold_getD_alpha (data : List Nat) (level : ℚ) (p : Nat) :
    (threshold data level).getD (4 * p + 3) 0 = data.getD (4 * p + 3) 0 := by
  match p with
  | 0 =>
    match data with
    | [] => rfl
    | [r] => simp [threshold]
    | [r, g] => simp [threshold]
    | [r, g, b] => simp [threshold]
    | r :: g :: b :: a :: rest => simp [threshold]
  | p + 1 =>
    match data with
    | [] => rfl
    | [r] => simp [threshold, List.getD_eq_default]
    | [r, g] =>
      have h1 : (2 : Nat) ≤ 4 * (p + 1) + 3 := by omega
      simp only [threshold]
      rw [List.getD_eq_default _ _ (by simpa using h1),
        List.getD_eq_default _ _ (by simpa using h1)]
    | [r, g, b] =>
      have h1 : (3 : Nat) ≤ 4 * (p + 1) + 3 := by omega
      simp only [threshold]
      rw [List.getD_eq_default _ _ (by simpa using h1),
        List.getD_eq_default _ _ (by simpa using h1)]
    | r :: g :: b :: a :: rest =>
      simp only [threshold]
      rw [show 4 * (p + 1) + 3 = ((((4 * p + 3) + 1) + 1) + 1) + 1 from by omega]
      simp only [List.getD_cons_succ]
      exact threshold_getD_alpha rest level p

/-! ### Lemmas about the contour tracer -/

theorem getPixel_pos (img : Img) (x y : Int) (h : 127 < getPixel img x y) :
    inBounds img (x, y) := by
  unfold getPixel at h
  split at h
  · omega
  · rename_i hcond
    push_neg at hcond
    exact ⟨hcond.1, hcond.2.1, hcond.2.2.1, hcond.2.2.2⟩

theorem findNextAux_some (img : Img) (x y : Int) (dir : Nat) :
    ∀ (fuel i : Nat) (nx ny : Int) (nd : Nat),
      findNextAux img x y dir i fuel = some (nx, ny, nd) →
      127 < getPixel img nx ny := by
  intro fuel
  induction fuel with
  | zero => intro i nx ny nd h; simp [findNextAux] at h
  | succ fuel ih =>
    intro i nx ny nd h
    simp only [findNextAux] at h
    split at h
    · rename_i hcond
      simp only [Option.some.injEq, Prod.mk.injEq] at h
      obtain ⟨h1, h2, _⟩ := h
      rw [← h1, ← h2]
      exact hcond
    · exact ih (i + 1) nx ny nd h

theorem traceGo_length_le (img : Img) (sx sy : Nat) :
    ∀ (fuel : Nat) (x y : Int) (dir : Nat) (first : Bool)
      (acc : List (Int × Int)) (vis : List Bool),
      (traceGo img sx sy fuel x y dir first acc vis).1.length ≤
        acc.length + fuel + 1 := by
  intro fuel
  induction fuel with
  | zero =>
    intro x y dir first acc vis
    simp [traceGo]
  | succ fuel ih =>
    intro x y dir first acc vis
    simp only [traceGo]
    split
    · simp
    · split
      · simp
      · rename_i nx ny nd hfn h1
        have h := ih nx ny nd false (acc ++ [(x, y)]) (vis.set (y.toNat * img.width + x.toNat) true)
        simp only [List.length_append, List.length_cons, List.length_nil] at h ⊢
        omega

theorem traceGo_inBounds (img : Img) (sx sy : Nat) :
    ∀ (fuel : Nat) (x y : Int) (dir : Nat) (first : Bool)
      (acc : List (Int × Int)) (vis : List Bool),
      inBounds img (x, y) →
      (∀ q ∈ acc, inBounds img q) →
      ∀ q ∈ (traceGo img sx sy fuel x y dir first acc vis).1, inBounds img q := by
  intro fuel
  induction fuel with
  | zero =>
    intro x y dir first acc vis hxy hacc
    simp only [traceGo]
    intro q hq
    rcases List.mem_append.mp hq with hq | hq
    · exact hacc q hq
    · rw [List.mem_singleton.mp hq]; exact hxy
  | succ fuel ih =>
    intro x y dir first acc vis hxy hacc
    simp only [traceGo]
    split
    · intro q hq
      rcases List.mem_append.mp hq with hq | hq
      · exact hacc q hq
      · rw [List.mem_singleton.mp hq]; exact hxy
    · rename_i nx ny nd hfn
      split
      · intro q hq
        rcases List.mem_append.mp hq with hq | hq
        · exact hacc q hq
        · rw [List.mem_singleton.mp hq]; exact hxy
      · have hnxy := getPixel_pos img nx ny (findNextAux_some img x y dir 8 0 nx ny nd hfn)
        refine ih nx ny nd false (acc ++ [(x, y)]) _ hnxy ?_
        intro q hq
        rcases List.mem_append.mp hq with hq | hq
        · exact hacc q hq
        · rw [List.mem_singleton.mp hq]; exact hxy

theorem getD_set_true (l : List Bool) (i j : Nat)
    (h : l.getD j false = true) : (l.set i true).getD j false = true := by
  by_cases hij : i = j
  · subst hij
    by_cases hi : i < l.length
    · simp [List.getD_eq_getElem?_getD, List.getElem?_set_self hi]
    · rw [List.getD_eq_default _ _ (by omega)] at h
      exact absurd h (by simp)
  · simpa [List.getD_eq_getElem?_getD, List.getElem?_set_ne hij] using h

theorem getD_set_true_self (l : List Bool) (i : Nat) (h : i < l.length) :
    (l.set i true).getD i false = true := by
  simp [List.getD_eq_getElem?_getD, List.getElem?_set_self h]

/-- The visited index of an in-bounds pixel is inside the visited list. -/
theorem idx_lt_area (w h x y : Nat) (hx : x < w) (hy : y < h) :
    y * w + x < w * h :=
  calc y * w + x < y * w + w := by omega
    _ = (y + 1) * w := by ring
    _ ≤ h * w := Nat.mul_le_mul_right w hy
    _ = w * h := Nat.mul_comm h w

/-- Marking invariant of the walk: if every already-collected pixel is
marked in the incoming visited list, then every pixel of the final contour
is marked in the final visited list (each round marks the pixel it appends
before moving on). -/
theorem traceGo_marks (img : Img) (sx sy : Nat) :
    ∀ (fuel : Nat) (x y : Int) (dir : Nat) (first : Bool)
      (acc : List (Int × Int)) (vis : List Bool),
      img.width * img.height ≤ vis.length →
      inBounds img (x, y) →
      (∀ q ∈ acc, vis.getD (q.2.toNat * img.width + q.1.toNat) false = true) →
      ∀ q ∈ (traceGo img sx sy fuel x y dir first acc vis).1,
        (traceGo img sx sy fuel x y dir first acc vis).2.getD
          (q.2.toNat * img.width + q.1.toNat) false = true := by
  intro fuel
  induction fuel with
  | zero =>
    intro x y dir first acc vis hlen hxy hacc
    simp only [traceGo]
    intro q hq
    rcases List.mem_append.mp hq with hq | hq
    · exact getD_set_true _ _ _ (hacc q hq)
    · rw [List.mem_singleton.mp hq]
      refine getD_set_true_self _ _ (lt_of_lt_of_le ?_ hlen)
      obtain ⟨h1, h2, h3, h4⟩ := hxy
      exact idx_lt_area img.width img.height x.toNat y.toNat (by omega) (by omega)
  | succ fuel ih =>
    intro x y dir first acc vis hlen hxy hacc
    have hidx : y.toNat * img.width + x.toNat < vis.length := by
      refine lt_of_lt_of_le ?_ hlen
      obtain ⟨h1, h2, h3, h4⟩ := hxy
      exact idx_lt_area img.width img.height x.toNat y.toNat (by omega) (by omega)
    simp only [traceGo]
    split
    · intro q hq
      rcases List.mem_append.mp hq with hq | hq
      · exact getD_set_true _ _ _ (hacc q hq)
      · rw [List.mem_singleton.mp hq]
        exact getD_set_true_self _ _ hidx
    · rename_i nx ny nd hfn
      split
      · intro q hq
        rcases List.mem_append.mp hq with hq | hq
        · exact getD_set_true _ _ _ (hacc q hq)
        · rw [List.mem_singleton.mp hq]
          exact getD_set_true_self _ _ hidx
      · have hnxy := getPixel_pos img nx ny (findNextAux_some img x y dir 8 0 nx ny nd hfn)
        refine ih nx ny nd false (acc ++ [(x, y)])
          (vis.set (y.toNat * img.width + x.toNat) true) (by simp [hlen]) hnxy ?_
        intro q hq
        rcases List.mem_append.mp hq with hq | hq
        · exact getD_set_true _ _ _ (hacc q hq)
        · rw [List.mem_singleton.mp hq]
          exact getD_set_true_self _ _ hidx

/-- Invariant-preservation of one scan cell, for any point-level property
that tracing from a bright seed guarantees. -/
theorem scanCell_preserves (img : Img) (P : Int × Int → Prop)
    (hP : ∀ (vis : List Bool) (x y : Nat), 127 < getPixel img x y →
      ∀ q ∈ (traceContour img vis x y).1, P q)
    (st : List Bool × List (List (Int × Int))) (x y : Nat)
    (h : ∀ c ∈ st.2, ∀ q ∈ c, P q) :
    ∀ c ∈ (scanCell img st x y).2, ∀ q ∈ c, P q := by
  simp only [scanCell]
  by_cases h1 : st.1.getD (y * img.width + x) false
  · rw [if_pos h1]
    exact h
  · rw [if_neg h1]
    by_cases h2 : 127 < getPixel img x y
    · rw [if_pos h2]
      by_cases h3 : (getPixel img ((x : Int) - 1) y ≤ 127 ∨
          getPixel img ((x : Int) + 1) y ≤ 127 ∨ getPixel img x ((y : Int) - 1) ≤ 127 ∨
          getPixel img x ((y : Int) + 1) ≤ 127) ∧
          st.1.getD (y * img.width + x) false = false
      · rw [if_pos h3]
        by_cases h4 : 10 ≤ (traceContour img st.1 x y).1.length
        · rw [if_pos h4]
          intro c hc
          rcases List.mem_append.mp hc with hc | hc
          · exact h c hc
          · rw [List.mem_singleton.mp hc]
            exact hP st.1 x y h2
        · rw [if_neg h4]
          exact h
      · rw [if_neg h3]
        exact h
    · rw [if_neg h2]
      exact h

theorem foldl_preserves {α β : Type} (P : α → Prop) (f : α → β → α) (l : List β)
    (hf : ∀ a b, P a → P (f a b)) : ∀ a, P a → P (l.foldl f a) := by
  induction l with
  | nil => intro a h; exact h
  | cons b t ih => intro a h; exact ih (f a b) (hf a b h)

/-- Every contour that `findContours` returns satisfies any property that
tracing from a bright seed guarantees of its points. -/
theorem findContours_points (img : Img) (P : Int × Int → Prop)
    (hP : ∀ (vis : List Bool) (x y : Nat), 127 < getPixel img x y →
      ∀ q ∈ (traceContour img vis x y).1, P q) :
    ∀ c ∈ findContours img, ∀ q ∈ c, P q := by
  unfold findContours
  refine foldl_preserves
    (fun st : List Bool × List (List (Int × Int)) => ∀ c ∈ st.2, ∀ q ∈ c, P q)
    _ _ ?_ _ (by simp)
  intro st y hst
  exact foldl_preserves
    (fun st : List Bool × List (List (Int × Int)) => ∀ c ∈ st.2, ∀ q ∈ c, P q)
    _ _ (fun st2 x h2 => scanCell_preserves img P hP st2 x y h2) st hst

/-! ### Lemmas about region filtering and sorting -/

theorem insertRegion_perm (r : Region) (l : List Region) :
    (insertRegion r l).Perm (r :: l) := by
  induction l with
  | nil => exact List.Perm.refl _
  | cons s rest ih =>
    simp only [insertRegion]
    split
    · exact List.Perm.refl _
    · exact (List.Perm.cons s ih).trans (List.Perm.swap r s rest)

theorem sortByAreaDesc_perm (l : List Region) : (sortByAreaDesc l).Perm l := by
  induction l with
  | nil => exact List.Perm.refl _
  | cons r rest ih =>
    simp only [sortByAreaDesc]
    exact (insertRegion_perm r (sortByAreaDesc rest)).trans (List.Perm.cons r ih)

theorem insertRegion_sorted (r : Region) (l : List Region)
    (h : l.Sorted (fun a b => b.area ≤ a.area)) :
    (insertRegion r l).Sorted (fun a b => b.area ≤ a.area) := by
  induction l with
  | nil => simp [insertRegion]
  | cons s rest ih =>
    simp only [insertRegion]
    rw [List.sorted_cons] at h
    split
    · rename_i hsr
      rw [List.sorted_cons]
      refine ⟨?_, by rw [List.sorted_cons]; exact h⟩
      intro b hb
      rcases List.mem_cons.mp hb with hb | hb
      · rw [hb]; exact hsr
      · exact le_trans (h.1 b hb) hsr
    · rename_i hsr
      rw [List.sorted_cons]
      constructor
      · intro b hb
        rcases List.mem_cons.mp ((insertRegion_perm r rest).mem_iff.mp hb) with hb | hb
        · rw [hb]; exact le_of_not_le hsr
        · exact h.1 b hb
      · exact ih h.2

theorem sortByAreaDesc_sorted (l : List Region) :
    (sortByAreaDesc l).Sorted (fun a b => b.area ≤ a.area) := by
  induction l with
  | nil => simp [sortByAreaDesc]
  | cons r rest ih =>
    simp only [sortByAreaDesc]
    exact insertRegion_sorted r (sortByAreaDesc rest) ih

theorem filter_insertRegion (r : Region) (v : ℚ) (l : List Region) :
    (insertRegion r l).filter (fun s => decide (s.area = v)) =
      if r.area = v then r :: l.filter (fun s => decide (s.area = v))
      else l.filter (fun s => decide (s.area = v)) := by
  induction l with
  | nil =>
    simp only [insertRegion]
    by_cases hr : r.area = v
    · rw [if_pos hr]; simp [List.filter_cons, hr]
    · rw [if_neg hr]; simp [List.filter_cons, hr]
  | cons s rest ih =>
    simp only [insertRegion]
    split
    · rename_i hsr
      by_cases hr : r.area = v <;> simp [List.filter_cons, hr]
    · rename_i hsr
      by_cases hs : s.area = v
      · have hr : r.area ≠ v := by
          intro he
          exact hsr (by rw [he, ← hs])
        simp [List.filter_cons, hs, hr, ih]
      · by_cases hr : r.area = v <;> simp [List.filter_cons, hs, hr, ih]

theorem filter_sortByAreaDesc (l : List Region) (v : ℚ) :
    (sortByAreaDesc l).filter (fun s => decide (s.area = v)) =
      l.filter (fun s => decide (s.area = v)) := by
  induction l with
  | nil => rfl
  | cons r rest ih =>
    simp only [sortByAreaDesc]
    rw [filter_insertRegion]
    by_cases hr : r.area = v
    · rw [if_pos hr, ih]
      simp [List.filter_cons, hr]
    · rw [if_neg hr, ih]
      simp [List.filter_cons, hr]

/-! ### Test images -/

/-- The bright mask of a "pinch" test image: one bright pixel at (5, 1)
diagonally touching two 4×3 bright blocks that are otherwise separated. -/
def pinchWhite (x y : Nat) : Bool :=
  (x == 5 && y == 1) ||
  (decide (1 ≤ x) && decide (x ≤ 4) && decide (2 ≤ y) && decide (y ≤ 4)) ||
  (decide (6 ≤ x) && decide (x ≤ 9) && decide (2 ≤ y) && decide (y ≤ 4))

/-- An 11×6 image whose bright region pinches to the single pixel (5, 1):
the walk seeded there returns to its start after looping only the left
block, and the walk later seeded in the right block passes through (5, 1)
and the left block again. -/
def pinchImg : Img :=
  { width := 11, height := 6,
    data := (List.range 66).flatMap (fun p =>
      let v := if pinchWhite (p % 11) (p / 11) then 255 else 0
      [v, v, v, 255]) }

/-- A 7×7 image with a 5×5 bright square: one 16-point boundary contour. -/
def squareImg : Img :=
  { width := 7, height := 7,
    data := (List.range 49).flatMap (fun p =>
      let x := p % 7
      let y := p / 7
      let v := if 1 ≤ x && x ≤ 5 && 1 ≤ y && y ≤ 5 then 255 else 0
      [v, v, v, 255]) }

/-! ### Claim theorems -/

/-- C1: Douglas–Peucker simplification never increases the point count, and
for a fixed contour the output point count is monotonically non-increasing
in the tolerance: for `0 ≤ t1 ≤ t2`,
`length (simplifyContour c t2) ≤ length (simplifyContour c t1) ≤ length c`. -/
theorem simplifyContour_length_monotone (c : List Point) (t1 t2 : ℚ)
    (h0 : 0 ≤ t1) (h12 : t1 ≤ t2) :
    (simplifyContour c t2).length ≤ (simplifyContour c t1).length ∧
      (simplifyContour c t1).length ≤ c.length :=
  ⟨simplifyContourFuel_length_anti c.length c t1 t2 h0 h12,
   simplifyContourFuel_length_le c.length c t1⟩

theorem simplifyContour_length_monotone_witness :
    ((0 : ℚ) ≤ 1) ∧ ((1 : ℚ) ≤ 4) ∧
    ((simplifyContour [⟨0, 0⟩, ⟨1, 3⟩, ⟨2, 0⟩, ⟨3, 3⟩, ⟨4, 0⟩] 4).length ≤
        (simplifyContour [⟨0, 0⟩, ⟨1, 3⟩, ⟨2, 0⟩, ⟨3, 3⟩, ⟨4, 0⟩] 1).length ∧
      (simplifyContour [⟨0, 0⟩, ⟨1, 3⟩, ⟨2, 0⟩, ⟨3, 3⟩, ⟨4, 0⟩] 1).length ≤
        ([⟨0, 0⟩, ⟨1, 3⟩, ⟨2, 0⟩, ⟨3, 3⟩, ⟨4, 0⟩] : List Point).length) :=
  ⟨by decide, by decide,
   simplifyContour_length_monotone [⟨0, 0⟩, ⟨1, 3⟩, ⟨2, 0⟩, ⟨3, 3⟩, ⟨4, 0⟩] 1 4
     (by decide) (by decide)⟩

/-- C2 (amended): during contour tracing every pixel the walk visits is
marked in the visited bitmap immediately when visited — every point of the
returned contour is marked in the returned bitmap.  (The original claim's
consequence that distinct returned contours never share a pixel is false:
the walk never consults the bitmap; see the counterexample.) -/
theorem traceContour_marks_visited (img : Img) (vis : List Bool) (sx sy : Nat)
    (hlen : img.width * img.height ≤ vis.length)
    (hsx : sx < img.width) (hsy : sy < img.height) :
    ∀ q ∈ (traceContour img vis sx sy).1,
      (traceContour img vis sx sy).2.getD
        (q.2.toNat * img.width + q.1.toNat) false = true := by
  unfold traceContour
  refine traceGo_marks img sx sy _ sx sy 7 true [] vis hlen ?_ (by simp)
  unfold inBounds
  refine ⟨by omega, by omega, by omega, by omega⟩

theorem traceContour_marks_visited_witness :
    (squareImg.width * squareImg.height ≤ (List.replicate 49 false).length) ∧
    (1 < squareImg.width) ∧ (1 < squareImg.height) ∧
    ∀ q ∈ (traceContour squareImg (List.replicate 49 false) 1 1).1,
      (traceContour squareImg (List.replicate 49 false) 1 1).2.getD
        (q.2.toNat * squareImg.width + q.1.toNat) false = true :=
  ⟨by decide, by decide, by decide,
   traceContour_marks_visited squareImg (List.replicate 49 false) 1 1
     (by decide) (by decide) (by decide)⟩

/-- C2 counterexample: on `pinchImg`, `findContours` returns exactly two
contours, distinct, and both contain the pixel (5, 1): distinct returned
contours can share pixel coordinates, so the claimed consequence of the
marking discipline does not hold. -/
theorem findContours_overlap_counterexample :
    (findContours pinchImg).length = 2 ∧
      (findContours pinchImg).getD 0 [] ≠ (findContours pinchImg).getD 1 [] ∧
      ((5 : Int), (1 : Int)) ∈ (findContours pinchImg).getD 0 [] ∧
      ((5 : Int), (1 : Int)) ∈ (findContours pinchImg).getD 1 [] := by
  set_option maxRecDepth 10000 in decide

/-- C3: after `threshold(level)` every color channel is exactly 0 or 255; a
channel becomes 255 iff the pixel's red value strictly exceeds
`level * 2.55`; the alpha channel is left exactly as it was. -/
theorem threshold_binarizes (data : List Nat) (level : ℚ) (p c : Nat)
    (hc : c ≤ 2) (h : 4 * p + c < data.length) :
    ((threshold data level).getD (4 * p + c) 0 = 0 ∨
      (threshold data level).getD (4 * p + c) 0 = 255) ∧
    ((threshold data level).getD (4 * p + c) 0 = 255 ↔
      level * (255 / 100) < (data.getD (4 * p) 0 : ℚ)) ∧
    (threshold data level).getD (4 * p + 3) 0 = data.getD (4 * p + 3) 0 := by
  refine ⟨?_, ?_, threshold_getD_alpha data level p⟩
  · rw [threshold_getD_color data level p c hc h]
    split
    · right; rfl
    · left; rfl
  · rw [threshold_getD_color data level p c hc h]
    split
    · rename_i hcond
      exact iff_of_true rfl hcond
    · rename_i hcond
      exact iff_of_false (by decide) hcond

theorem threshold_binarizes_witness :
    ((1 : Nat) ≤ 2) ∧ (4 * 0 + 1 < ([200, 10, 20, 7] : List Nat).length) ∧
    (((threshold [200, 10, 20, 7] 50).getD (4 * 0 + 1) 0 = 0 ∨
        (threshold [200, 10, 20, 7] 50).getD (4 * 0 + 1) 0 = 255) ∧
      ((threshold [200, 10, 20, 7] 50).getD (4 * 0 + 1) 0 = 255 ↔
        (50 : ℚ) * (255 / 100) < (([200, 10, 20, 7] : List Nat).getD (4 * 0) 0 : ℚ)) ∧
      (threshold [200, 10, 20, 7] 50).getD (4 * 0 + 3) 0 =
        ([200, 10, 20, 7] : List Nat).getD (4 * 0 + 3) 0) :=
  ⟨by decide, by decide,
   threshold_binarizes [200, 10, 20, 7] 50 0 1 (by decide) (by decide)⟩

/-- C4: the region filter boundary is inclusive — a region produced by the
map appears in the output of `processContours` iff its area is at least
`minRegionArea` (so area exactly equal is retained, strictly below is
dropped). -/
theorem processContours_area_filter (contours : List (List Point))
    (tol sm minA : ℚ) (r : Region) :
    r ∈ processContours contours tol sm minA ↔
      r ∈ contours.map (mkRegion tol sm) ∧ minA ≤ r.area := by
  unfold processContours
  rw [(sortByAreaDesc_perm _).mem_iff, List.mem_filter]
  simp

/-- C5: the output of `processContours` is sorted by descending area, and
the sort is stable — for every area value `v`, the subsequence of output
regions with area `v` equals the subsequence of surviving regions with area
`v` in discovery order. -/
theorem processContours_sorted_stable (contours : List (List Point))
    (tol sm minA : ℚ) :
    (processContours contours tol sm minA).Sorted (fun a b => b.area ≤ a.area) ∧
    ∀ v : ℚ,
      (processContours contours tol sm minA).filter (fun r => decide (r.area = v)) =
        ((contours.map (mkRegion tol sm)).filter (fun r => minA ≤ r.area)).filter
          (fun r => decide (r.area = v)) :=
  ⟨sortByAreaDesc_sorted _, fun v => filter_sortByAreaDesc _ v⟩

/-- C6: simplification preserves endpoints — for every nonempty contour and
tolerance ≥ 0 the first and last points of the output equal those of the
input (contours of length ≤ 2 are returned unchanged, which the same
theorem covers since then output = input). -/
theorem simplifyContour_preserves_endpoints (c : List Point) (tolerance : ℚ)
    (hne : c ≠ []) (htol : 0 ≤ tolerance) :
    (simplifyContour c tolerance).head? = c.head? ∧
      (simplifyContour c tolerance).getLast? = c.getLast? :=
  ⟨simplifyContourFuel_head? c.length c tolerance hne,
   simplifyContourFuel_getLast? c.length c tolerance hne⟩

theorem simplifyContour_preserves_endpoints_witness :
    (([⟨0, 0⟩, ⟨1, 1⟩, ⟨2, 0⟩] : List Point) ≠ []) ∧ ((0 : ℚ) ≤ 0) ∧
    ((simplifyContour [⟨0, 0⟩, ⟨1, 1⟩, ⟨2, 0⟩] 0).head? =
        ([⟨0, 0⟩, ⟨1, 1⟩, ⟨2, 0⟩] : List Point).head? ∧
      (simplifyContour [⟨0, 0⟩, ⟨1, 1⟩, ⟨2, 0⟩] 0).getLast? =
        ([⟨0, 0⟩, ⟨1, 1⟩, ⟨2, 0⟩] : List Point).getLast?) :=
  ⟨by decide, by decide,
   simplifyContour_preserves_endpoints [⟨0, 0⟩, ⟨1, 1⟩, ⟨2, 0⟩] 0
     (by decide) (by decide)⟩

/-- C7: every contour walk terminates — `traceContour` is a total function
whose stopping conditions are returning to the start, finding no bright
neighbor, or the `width*height` iteration cap — and the returned contour has
at most `width*height + 1` points; the cap truncates the contour rather
than failing the run. -/
theorem traceContour_walk_bounded (img : Img) (vis : List Bool) (sx sy : Nat) :
    (traceContour img vis sx sy).1.length ≤ img.width * img.height + 1 := by
  have h := traceGo_length_le img sx sy (img.width * img.height - 1)
    sx sy 7 true [] vis
  simp only [List.length_nil] at h
  unfold traceContour
  omega

/-- C8: the edge detector's output is independent of the `edgeRadius`
setting — the Sobel kernels are fixed 3×3 and the radius parameter is never
read. -/
theorem detectEdges_radius_independent (img : Img) (r1 r2 : Nat) :
    detectEdges img r1 = detectEdges img r2 := rfl

/-- C9: every point of every contour returned by `findContours` lies inside
the image: `0 ≤ x < width` and `0 ≤ y < height`. -/
theorem findContours_in_bounds (img : Img) :
    ∀ c ∈ findContours img, ∀ q ∈ c, inBounds img q := by
  refine findContours_points img (inBounds img) ?_
  intro vis x y hxy q hq
  unfold traceContour at hq
  exact traceGo_inBounds img x y _ x y 7 true [] vis
    (getPixel_pos img x y hxy) (by simp) q hq

theorem findContours_in_bounds_witness :
    ((findContours squareImg).getD 0 [] ∈ findContours squareImg) ∧
    (((1 : Int), (1 : Int)) ∈ (findContours squareImg).getD 0 []) ∧
    inBounds squareImg ((1 : Int), (1 : Int)) :=
  ⟨by set_option maxRecDepth 10000 in decide,
   by set_option maxRecDepth 10000 in decide,
   findContours_in_bounds squareImg ((findContours squareImg).getD 0 [])
     (by set_option maxRecDepth 10000 in decide) ((1 : Int), (1 : Int))
     (by set_option maxRecDepth 10000 in decide)⟩

/-- C10: the threshold decision reads only the red channel — two buffers of
equal length that agree on every red byte produce identical R, G and B
output channels, regardless of their green and blue bytes. -/
theorem threshold_red_only (d1 d2 : List Nat) (level : ℚ)
    (hlen : d1.length = d2.length)
    (hred : ∀ p, d1.getD (4 * p) 0 = d2.getD (4 * p) 0) (p c : Nat)
    (hc : c ≤ 2) :
    (threshold d1 level).getD (4 * p + c) 0 =
      (threshold d2 level).getD (4 * p + c) 0 := by
  by_cases h : 4 * p + c < d1.length
  · rw [threshold_getD_color d1 level p c hc h,
      threshold_getD_color d2 level p c hc (by omega), hred p]
  · rw [List.getD_eq_default _ _ (by rw [threshold_length]; omega),
      List.getD_eq_default _ _ (by rw [threshold_length]; omega)]

theorem threshold_red_only_witness :
    (([10, 0, 0, 7] : List Nat).length = ([10, 9, 9, 7] : List Nat).length) ∧
    (∀ p, ([10, 0, 0, 7] : List Nat).getD (4 * p) 0 =
      ([10, 9, 9, 7] : List Nat).getD (4 * p) 0) ∧
    ((1 : Nat) ≤ 2) ∧
    ((threshold [10, 0, 0, 7] 2).getD (4 * 0 + 1) 0 =
      (threshold [10, 9, 9, 7] 2).getD (4 * 0 + 1) 0) := by
  refine ⟨rfl, ?_, by decide, ?_⟩
  · intro p
    match p with
    | 0 => rfl
    | n + 1 =>
      rw [List.getD_eq_default _ _
          (by simp only [List.length_cons, List.length_nil]; omega),
        List.getD_eq_default _ _
          (by simp only [List.length_cons, List.length_nil]; omega)]
  · exact threshold_red_only [10, 0, 0, 7] [10, 9, 9, 7] 2 rfl
      (fun p => match p with
        | 0 => rfl
        | n + 1 => by
          rw [List.getD_eq_default _ _
              (by simp only [List.length_cons, List.length_nil]; omega),
            List.getD_eq_default _ _
              (by simp only [List.length_cons, List.length_nil]; omega)])
      0 1 (by decide)

end SvgMapCreator
